import Mathlib

/-!
Verification of the GWFish Fisher-matrix core (`GWFish/modules/fishermatrix.py`)
against its natural-language specification.

The Python source is shallowly embedded in Lean: floating-point numbers are
modelled as real numbers, NumPy arrays over a detector frequency grid of `m`
bins as functions `Fin m → ℂ` (or `Fin m → ℝ`), square NumPy matrices as
`Matrix (Fin n) (Fin n) ℝ`, and Python parameter dictionaries as functions
`String → ℝ` (dictionary assignment on a copy becomes `Function.update`).
External collaborators of the core (the waveform model, `det.projection`,
`det.SNR`, `aux.scalar_product`, `np.linalg.svd`) are passed in as explicit
function arguments, exactly where the Python calls out to them.
-/

namespace GWFish

open scoped BigOperators
open scoped Matrix

noncomputable section

/-! ## Robust inversion: `invertSVD` (fishermatrix.py lines 13-27)

`np.linalg.svd` is an external routine; the embedding takes it as an argument
`svd` returning the triple `(U, S, Vh)`. -/

/-- The outer product `np.outer(dm, dm)` of `dm = np.sqrt(np.diag(matrix))`
with itself, the normalizer `invertSVD` divides by (lines 16-17). -/
def svdNormalizer {n : ℕ} (matrix : Matrix (Fin n) (Fin n) ℝ) :
    Matrix (Fin n) (Fin n) ℝ :=
  fun i j => Real.sqrt (matrix i i) * Real.sqrt (matrix j j)

/-- The normalized matrix `matrix / normalizer` of line 18 (entrywise
division). -/
def svdNormalized {n : ℕ} (matrix : Matrix (Fin n) (Fin n) ℝ) :
    Matrix (Fin n) (Fin n) ℝ :=
  fun i j => matrix i j / svdNormalizer matrix i j

/-- Embedding of `invertSVD(matrix)` (lines 13-27).  `svd` stands for
`np.linalg.svd`, returning `(U, S, Vh)`; `kVal = sum(S > thresh)` counts the
singular values above the threshold, and the reconstruction
`U[:, 0:kVal] @ np.diag(1. / S[0:kVal]) @ Vh[0:kVal, :]` keeps the first
`kVal` columns/rows.  Returns the denormalized truncated inverse and the full
singular-value array. -/
def invertSVD {n : ℕ} (matrix : Matrix (Fin n) (Fin n) ℝ)
    (svd : Matrix (Fin n) (Fin n) ℝ →
      Matrix (Fin n) (Fin n) ℝ × (Fin n → ℝ) × Matrix (Fin n) (Fin n) ℝ) :
    Matrix (Fin n) (Fin n) ℝ × (Fin n → ℝ) :=
  let thresh : ℝ := 1e-10
  let USV := svd (svdNormalized matrix)
  let U := USV.1
  let S := USV.2.1
  let Vh := USV.2.2
  let kVal : ℕ := (Finset.univ.filter (fun r : Fin n => S r > thresh)).card
  let matrix_inverse_norm : Matrix (Fin n) (Fin n) ℝ :=
    fun i j =>
      ∑ r ∈ Finset.univ.filter (fun r : Fin n => (r : ℕ) < kVal),
        U i r * (1 / S r) * Vh r j
  (fun i j => matrix_inverse_norm i j / svdNormalizer matrix i j, S)

/-! ## Derivative engine (fishermatrix.py lines 44-156)

The Python `Derivative` object holds the central parameter dictionary, the
step size `eps`, the detector (consumed only through its `frequencyvector`
and via `det.projection`), and the waveform model.  The external
collaborators are embedded as function-valued fields:

* `projection pv wave t_of_f` stands for
  `det.projection(pv, self.detector, wave, t_of_f)`;
* `waveformGen pv` stands for constructing
  `self.waveform_class(self.waveform, pv, self.data_params)`, calling it and
  reading `t_of_f` — the pair `(wave, t_of_f)`.

Parameter dictionaries are `String → ℝ`; `dict.copy()` followed by an
assignment is `Function.update`. -/

/-- State of one `Derivative` instance over an `m`-bin frequency grid. -/
structure Derivative (m : ℕ) where
  eps : ℝ
  frequencyvector : Fin m → ℝ
  local_params : String → ℝ
  projection : (String → ℝ) → (Fin m → ℂ) → (Fin m → ℝ) → Fin m → ℂ
  waveformGen : (String → ℝ) → (Fin m → ℂ) × (Fin m → ℝ)

/-- The default of the `eps` keyword argument of `Derivative.__init__`
(line 52). -/
def Derivative.defaultEps : ℝ := 1e-5

/-- The stored coalescence time `self.tc = self.local_params['geocent_time']`
(line 67). -/
def Derivative.tc {m : ℕ} (D : Derivative m) : ℝ :=
  D.local_params "geocent_time"

/-- The cached central waveform `waveform_at_parameters` (lines 69-80):
the pair `(wave, t_of_f)` at the central parameters. -/
def Derivative.waveform_at_parameters {m : ℕ} (D : Derivative m) :
    (Fin m → ℂ) × (Fin m → ℝ) :=
  D.waveformGen D.local_params

/-- The cached central projection `projection_at_parameters` (lines 86-92). -/
def Derivative.projection_at_parameters {m : ℕ} (D : Derivative m) :
    Fin m → ℂ :=
  D.projection D.local_params D.waveform_at_parameters.1
    D.waveform_at_parameters.2

/-- Embedding of `Derivative.with_respect_to(target_parameter)`
(lines 98-153): analytic closed forms for `luminosity_distance`,
`geocent_time` and `phase`; a central finite difference of the projection
alone for `ra`/`dec`/`psi`; and a central finite difference with full
waveform regeneration (at `geocent_time` set to 0, restored by the phase
factor `exp(2j*pi*f*tc)`) for every other parameter.  The final
`update_gw_params(self.local_params)` reset (line 151) only restores the
waveform model's state and does not change the returned value. -/
def Derivative.with_respect_to {m : ℕ} (D : Derivative m)
    (target_parameter : String) : Fin m → ℂ :=
  if target_parameter = "luminosity_distance" then
    fun i => (((-1 : ℝ) / D.local_params target_parameter : ℝ) : ℂ) *
      D.projection_at_parameters i
  else if target_parameter = "geocent_time" then
    fun i => 2 * Complex.I * (Real.pi : ℂ) * (D.frequencyvector i : ℂ) *
      D.projection_at_parameters i
  else if target_parameter = "phase" then
    fun i => -Complex.I * D.projection_at_parameters i
  else
    let pv := D.local_params target_parameter
    let dp := max D.eps (D.eps * pv)
    let pv_set1 := Function.update D.local_params target_parameter (pv - dp / 2)
    let pv_set2 := Function.update D.local_params target_parameter (pv + dp / 2)
    if target_parameter = "ra" ∨ target_parameter = "dec" ∨
        target_parameter = "psi" then
      let signal1 := D.projection pv_set1 D.waveform_at_parameters.1
        D.waveform_at_parameters.2
      let signal2 := D.projection pv_set2 D.waveform_at_parameters.1
        D.waveform_at_parameters.2
      fun i => (signal2 i - signal1 i) / (dp : ℂ)
    else
      let pv_set1' := Function.update pv_set1 "geocent_time" 0
      let pv_set2' := Function.update pv_set2 "geocent_time" 0
      let w1 := D.waveformGen pv_set1'
      let w2 := D.waveformGen pv_set2'
      let pv_set1'' := Function.update pv_set1' "geocent_time" D.tc
      let pv_set2'' := Function.update pv_set2' "geocent_time" D.tc
      let signal1 := D.projection pv_set1'' w1.1 (fun i => w1.2 i + D.tc)
      let signal2 := D.projection pv_set2'' w2.1 (fun i => w2.2 i + D.tc)
      fun i => Complex.exp (2 * Complex.I * (Real.pi : ℂ) *
          (D.frequencyvector i : ℂ) * (D.tc : ℂ)) *
        (signal2 i - signal1 i) / (dp : ℂ)

/-- Statement of claim C3's step rule, following the claim's words: the
finite-difference step is `max(eps, eps·|θ|)` (with the absolute value) and
the projection-only branch evaluates the projection at `θ − dθ/2` and
`θ + dθ/2`.  To be compared with the source embedding
`Derivative.with_respect_to`. -/
def Derivative.claimed_projection_fd {m : ℕ} (D : Derivative m)
    (target_parameter : String) : Fin m → ℂ :=
  let pv := D.local_params target_parameter
  let dp := max D.eps (D.eps * |pv|)
  let pv_set1 := Function.update D.local_params target_parameter (pv - dp / 2)
  let pv_set2 := Function.update D.local_params target_parameter (pv + dp / 2)
  fun i =>
    (D.projection pv_set2 D.waveform_at_parameters.1
        D.waveform_at_parameters.2 i -
      D.projection pv_set1 D.waveform_at_parameters.1
        D.waveform_at_parameters.2 i) / (dp : ℂ)

/-- The finite-difference step the source actually uses (line 112):
`np.maximum(self.eps, self.eps * pv)`, with no absolute value. -/
def Derivative.fd_step {m : ℕ} (D : Derivative m)
    (target_parameter : String) : ℝ :=
  max D.eps (D.eps * D.local_params target_parameter)

/-- Amended form of claim C3's projection-only branch: central difference of
the projection at `θ ∓ dθ/2` with step `dθ = max(eps, eps·θ)` (no absolute
value). -/
def Derivative.amended_projection_fd {m : ℕ} (D : Derivative m)
    (target_parameter : String) : Fin m → ℂ :=
  let pv := D.local_params target_parameter
  let dp := D.fd_step target_parameter
  let pv_set1 := Function.update D.local_params target_parameter (pv - dp / 2)
  let pv_set2 := Function.update D.local_params target_parameter (pv + dp / 2)
  fun i =>
    (D.projection pv_set2 D.waveform_at_parameters.1
        D.waveform_at_parameters.2 i -
      D.projection pv_set1 D.waveform_at_parameters.1
        D.waveform_at_parameters.2 i) / (dp : ℂ)

/-- Amended form of claim C3's full-regeneration branch: central difference
at `θ ∓ dθ/2` with step `dθ = max(eps, eps·θ)`, the perturbed waveforms
generated with `geocent_time` set to 0, the track shifted back by `tc`, and
the quotient corrected by the phase factor `exp(i·2π·f·tc)`. -/
def Derivative.amended_regeneration_fd {m : ℕ} (D : Derivative m)
    (target_parameter : String) : Fin m → ℂ :=
  let pv := D.local_params target_parameter
  let dp := D.fd_step target_parameter
  let pv_set1 := Function.update D.local_params target_parameter (pv - dp / 2)
  let pv_set2 := Function.update D.local_params target_parameter (pv + dp / 2)
  let w1 := D.waveformGen (Function.update pv_set1 "geocent_time" 0)
  let w2 := D.waveformGen (Function.update pv_set2 "geocent_time" 0)
  let signal1 := D.projection pv_set1 w1.1 (fun i => w1.2 i + D.tc)
  let signal2 := D.projection pv_set2 w2.1 (fun i => w2.2 i + D.tc)
  fun i => Complex.exp (2 * Complex.I * (Real.pi : ℂ) *
      (D.frequencyvector i : ℂ) * (D.tc : ℂ)) *
    (signal2 i - signal1 i) / (dp : ℂ)

/-! ## Fisher matrix assembly (fishermatrix.py lines 158-189)

`FisherMatrix.update_fm` loops over an ordered parameter list: for each row
`p1` it calls `self.derivative(fisher_parameters[p1])`, writes the diagonal
entry, and for each `p2 > p1` calls `self.derivative(fisher_parameters[p2])`
again, writing the `(p1,p2)` entry and mirroring it to `(p2,p1)`.  The
embedding replays this imperative loop with an explicit matrix state and a
trace of the row/column indices whose parameter name is passed to
`self.derivative`, in call order.  `aux.scalar_product` is the external
noise-weighted inner product returning a per-frequency-bin array; the
`np.sum(..., axis=0)` over the frequency axis is the `∑ i` below. -/

/-- Single NumPy-style matrix element assignment `M[a, b] = v`. -/
def mwrite {nd : ℕ} (M : Matrix (Fin nd) (Fin nd) ℝ) (a b : Fin nd) (v : ℝ) :
    Matrix (Fin nd) (Fin nd) ℝ :=
  fun i j => if i = a ∧ j = b then v else M i j

/-- Body of the inner `for p2 in np.arange(p1+1, self.nd)` loop of
`update_fm` (lines 172-176): call `self.derivative(fisher_parameters[p2])`
(appending `p2` to the call trace), form the noise-weighted inner product
with the row derivative, write it at `(p1,p2)` and mirror it to `(p2,p1)`.
`deriv1` is recomputed here from `p1`; since the derivative collaborator is a
pure function this has the same value the Python loop holds in its local
`deriv1`. -/
def fmInnerStep {m nd : ℕ} (fisher_parameters : Fin nd → String)
    (derivative : String → Fin m → ℂ)
    (scalar_product : (Fin m → ℂ) → (Fin m → ℂ) → Fin m → ℝ) (p1 : Fin nd)
    (acc2 : Matrix (Fin nd) (Fin nd) ℝ × List (Fin nd)) (p2 : Fin nd) :
    Matrix (Fin nd) (Fin nd) ℝ × List (Fin nd) :=
  let deriv1 := derivative (fisher_parameters p1)
  let deriv2 := derivative (fisher_parameters p2)
  let v := ∑ i, scalar_product deriv1 deriv2 i
  (mwrite (mwrite acc2.1 p1 p2 v) p2 p1 v, acc2.2 ++ [p2])

/-- Body of the outer `for p1 in np.arange(self.nd)` loop of `update_fm`
(lines 168-176): call `self.derivative(fisher_parameters[p1])` (appending
`p1` to the call trace), write the diagonal entry, then run the inner loop
over `p2 = p1+1, …, nd-1`. -/
def fmOuterStep {m nd : ℕ} (fisher_parameters : Fin nd → String)
    (derivative : String → Fin m → ℂ)
    (scalar_product : (Fin m → ℂ) → (Fin m → ℂ) → Fin m → ℝ)
    (acc : Matrix (Fin nd) (Fin nd) ℝ × List (Fin nd)) (p1 : Fin nd) :
    Matrix (Fin nd) (Fin nd) ℝ × List (Fin nd) :=
  let deriv1 := derivative (fisher_parameters p1)
  let acc1 : Matrix (Fin nd) (Fin nd) ℝ × List (Fin nd) :=
    (mwrite acc.1 p1 p1 (∑ i, scalar_product deriv1 deriv1 i),
      acc.2 ++ [p1])
  ((List.finRange nd).filter (fun p2 => decide (p1 < p2))).foldl
    (fmInnerStep fisher_parameters derivative scalar_product p1) acc1

/-- Embedding of one run of `FisherMatrix.update_fm` (lines 166-176):
returns the matrix `self._fm` it builds (also what the lazy `fm` accessor of
lines 178-182 returns on first access) together with the list of parameter
indices passed to `self.derivative`, in call order. -/
def update_fm_run {m nd : ℕ} (fisher_parameters : Fin nd → String)
    (derivative : String → Fin m → ℂ)
    (scalar_product : (Fin m → ℂ) → (Fin m → ℂ) → Fin m → ℝ) :
    Matrix (Fin nd) (Fin nd) ℝ × List (Fin nd) :=
  (List.finRange nd).foldl
    (fmOuterStep fisher_parameters derivative scalar_product)
    ((0 : Matrix (Fin nd) (Fin nd) ℝ), ([] : List (Fin nd)))

/-- The noise-weighted inner product of the derivatives of parameters `p` and
`q`, summed over the frequency axis: the value `update_fm` stores at `(p,q)`
(first argument is the row derivative). -/
def fmEntry {m nd : ℕ} (fisher_parameters : Fin nd → String)
    (derivative : String → Fin m → ℂ)
    (scalar_product : (Fin m → ℂ) → (Fin m → ℂ) → Fin m → ℝ)
    (p q : Fin nd) : ℝ :=
  ∑ i, scalar_product (derivative (fisher_parameters p))
    (derivative (fisher_parameters q)) i

/-! ## Network aggregation (fishermatrix.py lines 241-321)

`compute_detector_fisher` (lines 218-239) calls out to the waveform model,
`det.projection` and `det.SNR`; `compute_network_errors` consumes it only
through the returned pair `(fisher_matrix, snr_square)`, so the embedding
abstracts it as a collaborator `detectorFisher : δ → σ → matrix × ℝ` over
opaque detector and signal-row types `δ` and `σ`.  `decOf` reads the `dec`
column of a signal row; `svd` is `np.linalg.svd` as in `invertSVD`. -/

/-- A detector network: the ordered detector list and the
`detection_SNR` pair (individual threshold, network threshold). -/
structure Network (δ : Type) where
  detectors : List δ
  detection_SNR : ℝ × ℝ

/-- Embedding of the inner detector loop of `compute_network_errors` for one
signal (lines 287-300): starting from the zero matrix and zero SNR², each
detector's SNR² is added unconditionally, and its Fisher matrix is added only
when `np.sqrt(detector_snr_square) > detector_snr_thr` (strictly). -/
def networkAccumulate {δ : Type} {n : ℕ} (detector_snr_thr : ℝ)
    (detectors : List δ)
    (detectorFisher : δ → Matrix (Fin n) (Fin n) ℝ × ℝ) :
    Matrix (Fin n) (Fin n) ℝ × ℝ :=
  detectors.foldl
    (fun acc d =>
      let fisher_snr := detectorFisher d
      ((if Real.sqrt fisher_snr.2 > detector_snr_thr then acc.1 + fisher_snr.1
        else acc.1),
        acc.2 + fisher_snr.2))
    ((0 : Matrix (Fin n) (Fin n) ℝ), (0 : ℝ))

/-- `network_snr[k] = np.sqrt(network_snr_square)` for the signal `sig`
(line 305). -/
def networkSnrAt {δ σ : Type} {n : ℕ} (detector_snr_thr : ℝ)
    (detectors : List δ)
    (detectorFisher : δ → σ → Matrix (Fin n) (Fin n) ℝ × ℝ) (sig : σ) : ℝ :=
  Real.sqrt
    (networkAccumulate detector_snr_thr detectors
      (fun d => detectorFisher d sig)).2

/-- The inverted accumulated network Fisher matrix for the signal `sig`
(line 302). -/
def networkFisherInverseAt {δ σ : Type} {n : ℕ} (detector_snr_thr : ℝ)
    (detectors : List δ)
    (detectorFisher : δ → σ → Matrix (Fin n) (Fin n) ℝ × ℝ)
    (svd : Matrix (Fin n) (Fin n) ℝ →
      Matrix (Fin n) (Fin n) ℝ × (Fin n → ℝ) × Matrix (Fin n) (Fin n) ℝ)
    (sig : σ) : Matrix (Fin n) (Fin n) ℝ :=
  (invertSVD
    (networkAccumulate detector_snr_thr detectors
      (fun d => detectorFisher d sig)).1 svd).1

/-- `parameter_errors[k, :] = np.sqrt(np.diagonal(network_fisher_inverse))`
for the signal `sig` (line 303). -/
def networkErrorsAt {δ σ : Type} {n : ℕ} (detector_snr_thr : ℝ)
    (detectors : List δ)
    (detectorFisher : δ → σ → Matrix (Fin n) (Fin n) ℝ × ℝ)
    (svd : Matrix (Fin n) (Fin n) ℝ →
      Matrix (Fin n) (Fin n) ℝ × (Fin n → ℝ) × Matrix (Fin n) (Fin n) ℝ)
    (sig : σ) : Fin n → ℝ :=
  fun i =>
    Real.sqrt
      (networkFisherInverseAt detector_snr_thr detectors detectorFisher svd
        sig i i)

/-- Embedding of `sky_localization_area` (lines 191-209). -/
def sky_localization_area {n : ℕ}
    (network_fisher_inverse : Matrix (Fin n) (Fin n) ℝ)
    (declination_angle : ℝ)
    (right_ascension_index declination_index : Fin n) : ℝ :=
  Real.pi * |Real.cos declination_angle| *
    Real.sqrt
      (network_fisher_inverse right_ascension_index right_ascension_index *
        network_fisher_inverse declination_index declination_index -
        network_fisher_inverse right_ascension_index declination_index ^ 2)

/-- Embedding of `sky_localization_percentile_factor` (lines 211-216). -/
def sky_localization_percentile_factor (percentile : ℝ) : ℝ :=
  -2 * Real.log (1 - percentile / 100) * (180 / Real.pi) ^ 2

/-- `sky_localization[k]` for the signal `sig` (lines 307-310). -/
def networkSkyAt {δ σ : Type} {n : ℕ} (detector_snr_thr : ℝ)
    (detectors : List δ)
    (detectorFisher : δ → σ → Matrix (Fin n) (Fin n) ℝ × ℝ)
    (svd : Matrix (Fin n) (Fin n) ℝ →
      Matrix (Fin n) (Fin n) ℝ × (Fin n → ℝ) × Matrix (Fin n) (Fin n) ℝ)
    (decOf : σ → ℝ) (i_ra i_dec : Fin n) (sig : σ) : ℝ :=
  sky_localization_area
    (networkFisherInverseAt detector_snr_thr detectors detectorFisher svd sig)
    (decOf sig) i_ra i_dec

/-- Embedding of `compute_network_errors` (lines 241-321).  The per-signal
loop computes network SNR, parameter errors and (when both `ra` and `dec` are
among the fisher parameters) the sky area; `np.where(network_snr >
network_snr_thr)` then selects the detected signals and all returned arrays
are indexed by that same list, here rendered as mapping the per-signal
values over the filtered signal list.  The `assert` preconditions of lines
270-271 (positive parameter and signal counts) abort the Python run and do
not change the returned value when they pass. -/
def compute_network_errors {δ σ : Type} (network : Network δ)
    (parameter_values : List σ) (fisher_parameters : List String)
    (detectorFisher : δ → σ →
      Matrix (Fin fisher_parameters.length) (Fin fisher_parameters.length) ℝ × ℝ)
    (decOf : σ → ℝ)
    (svd : Matrix (Fin fisher_parameters.length) (Fin fisher_parameters.length) ℝ →
      Matrix (Fin fisher_parameters.length) (Fin fisher_parameters.length) ℝ ×
        (Fin fisher_parameters.length → ℝ) ×
        Matrix (Fin fisher_parameters.length) (Fin fisher_parameters.length) ℝ) :
    List ℝ × List (Fin fisher_parameters.length → ℝ) × Option (List ℝ) :=
  let detector_snr_thr := network.detection_SNR.1
  let network_snr_thr := network.detection_SNR.2
  let detected := parameter_values.filter
    (fun s => decide
      (networkSnrAt detector_snr_thr network.detectors detectorFisher s >
        network_snr_thr))
  (detected.map (networkSnrAt detector_snr_thr network.detectors detectorFisher),
    detected.map
      (networkErrorsAt detector_snr_thr network.detectors detectorFisher svd),
    if h : "ra" ∈ fisher_parameters ∧ "dec" ∈ fisher_parameters then
      some (detected.map
        (networkSkyAt detector_snr_thr network.detectors detectorFisher svd decOf
          ⟨fisher_parameters.indexOf "ra", List.indexOf_lt_length.mpr h.1⟩
          ⟨fisher_parameters.indexOf "dec", List.indexOf_lt_length.mpr h.2⟩))
    else none)

/-! ## Reporting driver (fishermatrix.py lines 324-422)

`errors_file_name` reads each chosen detector's `.name` (the `nameOf`
collaborator) and renders the network threshold with Python's `str`
(the `snrText` collaborator).  Indexing `network.detectors[k]` out of range
would raise in Python; the embedding returns `""` for such `k`, which no
claim exercises.  `analyze_and_save_to_txt` builds a partial network from
each id list (`network.partial`, the `subNetworkOf` collaborator) but passes
the full `network` to `compute_network_errors`; the embedding returns, per id
list, the file name and the data handed to `output_to_txt_file`. -/

/-- Embedding of `errors_file_name` (lines 324-337, textually duplicated at
lines 373-386 with an identical body). -/
def errors_file_name {δ : Type} (network : Network δ)
    (sub_network_ids : List ℕ) (population_name : String)
    (nameOf : δ → String) (snrText : ℝ → String) : String :=
  let sub_network := String.intercalate "_"
    (sub_network_ids.map (fun k => ((network.detectors.get? k).map nameOf).getD ""))
  "Errors_" ++ sub_network ++ "_" ++ population_name ++ "_SNR" ++
    snrText network.detection_SNR.2

/-- Embedding of `analyze_and_save_to_txt` (lines 388-422): for each entry of
`sub_network_ids_list` it builds the (unused) partial network, calls
`compute_network_errors` on the full `network`, and writes the results to the
file named by `errors_file_name`; the result list pairs each file name with
the data written to it. -/
def analyze_and_save_to_txt {δ σ : Type} (network : Network δ)
    (parameter_values : List σ) (fisher_parameters : List String)
    (sub_network_ids_list : List (List ℕ)) (population_name : String)
    (subNetworkOf : Network δ → List ℕ → Network δ)
    (nameOf : δ → String) (snrText : ℝ → String)
    (detectorFisher : δ → σ →
      Matrix (Fin fisher_parameters.length) (Fin fisher_parameters.length) ℝ × ℝ)
    (decOf : σ → ℝ)
    (svd : Matrix (Fin fisher_parameters.length) (Fin fisher_parameters.length) ℝ →
      Matrix (Fin fisher_parameters.length) (Fin fisher_parameters.length) ℝ ×
        (Fin fisher_parameters.length → ℝ) ×
        Matrix (Fin fisher_parameters.length) (Fin fisher_parameters.length) ℝ) :
    List (String ×
      (List ℝ × List (Fin fisher_parameters.length → ℝ) × Option (List ℝ))) :=
  sub_network_ids_list.map (fun sub_network_ids =>
    let _partial_network := subNetworkOf network sub_network_ids
    (errors_file_name network sub_network_ids population_name nameOf snrText,
      compute_network_errors network parameter_values fisher_parameters
        detectorFisher decOf svd))

/-! ### Concrete inputs used by witnesses -/

/-- Witness input for C3: a one-bin `Derivative` whose `ra` central value is
`-2` (negative, of magnitude above 1) and whose projection collaborator is
the cube of the `ra` entry — a function whose central difference quotient
depends on the step size. -/
def witnessDerivC3 : Derivative 1 where
  eps := 1e-5
  frequencyvector := fun _ => 0
  local_params := fun s => if s = "ra" then -2 else 0
  projection := fun p _ _ _ => ((p "ra" : ℝ) : ℂ) ^ 3
  waveformGen := fun _ => (fun _ => 0, fun _ => 0)

/-- Witness input: a single-detector network whose individual and network
thresholds are both `0`. -/
def witnessNetworkUnit : Network Unit where
  detectors := [()]
  detection_SNR := (0, 0)

/-- Witness input: a single-detector network with individual threshold `8`
and network threshold `10`. -/
def witnessNetworkThr : Network Unit where
  detectors := [()]
  detection_SNR := (8, 10)

/-- Witness input: a detector-Fisher collaborator returning the zero matrix
and zero SNR² for every detector and signal. -/
def witnessZeroFisher : Unit → Unit → Matrix (Fin 1) (Fin 1) ℝ × ℝ :=
  fun _ _ => (0, 0)

/-- Witness input for C8: two fisher parameter names. -/
def witnessFisherParams2 : Fin 2 → String :=
  fun p => if p = 0 then "mass_1" else "mass_2"

/-- Witness input for C8: a derivative collaborator that is identically
zero on a one-bin grid. -/
def witnessDerivZero : String → Fin 1 → ℂ := fun _ _ => 0

/-- Witness input for C8: an identically zero scalar-product collaborator. -/
def witnessScalarZero : (Fin 1 → ℂ) → (Fin 1 → ℂ) → Fin 1 → ℝ :=
  fun _ _ _ => 0

/-- Witness input: the 1×1 matrix `[[4]]`. -/
def witnessMatrixFour : Matrix (Fin 1) (Fin 1) ℝ := Matrix.of fun _ _ => 4

/-- Witness input: a constant svd collaborator returning `(1, [1], 1)`. -/
def witnessSvdOne : Matrix (Fin 1) (Fin 1) ℝ →
    Matrix (Fin 1) (Fin 1) ℝ × (Fin 1 → ℝ) × Matrix (Fin 1) (Fin 1) ℝ :=
  fun _ => (1, fun _ => 1, 1)

end

/-! ### Theorems about `invertSVD` -/

/-- For a weakly decreasing array `S` (NumPy's `svd` returns the singular
values sorted in descending order), an index lies below the count of entries
above the threshold exactly when its own entry is above the threshold: the
filter-by-index truncation `S[0:kVal]` keeps exactly the entries `> thresh`. -/
theorem sorted_index_filter_eq_value_filter {n : ℕ} (S : Fin n → ℝ) (thresh : ℝ)
    (hsorted : ∀ i j : Fin n, i ≤ j → S j ≤ S i) (r : Fin n) :
    ((r : ℕ) < (Finset.univ.filter (fun r : Fin n => S r > thresh)).card) ↔
      S r > thresh := by
  set s : Finset (Fin n) := Finset.univ.filter (fun r : Fin n => S r > thresh) with hs
  constructor
  · intro hlt
    by_contra hnot
    have hsub : s ⊆ Finset.Iio r := by
      intro q hq
      have hq' : S q > thresh := (Finset.mem_filter.mp hq).2
      rw [Finset.mem_Iio]
      by_contra hge
      exact hnot (lt_of_lt_of_le hq' (hsorted r q (le_of_not_lt hge)))
    have := Finset.card_le_card hsub
    rw [Fin.card_Iio] at this
    omega
  · intro hr
    have hsub : Finset.Iic r ⊆ s := by
      intro q hq
      rw [Finset.mem_Iic] at hq
      exact Finset.mem_filter.mpr ⟨Finset.mem_univ q,
        lt_of_lt_of_le hr (hsorted q r hq)⟩
    have := Finset.card_le_card hsub
    rw [Fin.card_Iic] at this
    omega

/-- Claim C5: `invertSVD` normalizes each entry `M[i,j]` by
`sqrt(M[i,i]*M[j,j])`, decomposes the normalized matrix with the external
`svd` routine, retains exactly the singular values strictly greater than
`1e-10` (given that the `svd` collaborator returns them sorted in descending
order, as NumPy does), reconstructs the truncated pseudo-inverse from the
retained singular vectors and values, divides again by the same outer-product
normalizer, and returns that matrix together with the full untruncated
singular-value array. -/
theorem invertSVD_steps {n : ℕ} (matrix : Matrix (Fin n) (Fin n) ℝ)
    (svd : Matrix (Fin n) (Fin n) ℝ →
      Matrix (Fin n) (Fin n) ℝ × (Fin n → ℝ) × Matrix (Fin n) (Fin n) ℝ)
    (hsorted : ∀ i j : Fin n, i ≤ j →
      (svd (svdNormalized matrix)).2.1 j ≤ (svd (svdNormalized matrix)).2.1 i) :
    (∀ i j, svdNormalized matrix i j =
        matrix i j / (Real.sqrt (matrix i i) * Real.sqrt (matrix j j))) ∧
    (invertSVD matrix svd).2 = (svd (svdNormalized matrix)).2.1 ∧
    (∀ i j, (invertSVD matrix svd).1 i j =
      (∑ r ∈ Finset.univ.filter
          (fun r : Fin n => (svd (svdNormalized matrix)).2.1 r > 1e-10),
          (svd (svdNormalized matrix)).1 i r *
            (1 / (svd (svdNormalized matrix)).2.1 r) *
            (svd (svdNormalized matrix)).2.2 r j) /
        (Real.sqrt (matrix i i) * Real.sqrt (matrix j j))) := by
  refine ⟨fun i j => rfl, rfl, fun i j => ?_⟩
  show (∑ r ∈ Finset.univ.filter (fun r : Fin n => (r : ℕ) < _), _) / _ = _
  congr 1
  refine Finset.sum_congr (Finset.filter_congr fun r _ => ?_) fun _ _ => rfl
  simpa using sorted_index_filter_eq_value_filter
    (svd (svdNormalized matrix)).2.1 1e-10 hsorted r

/-- Witness for C5: `invertSVD` applied to the 1×1 matrix `[[1]]` with a
constant svd collaborator returning `(1, [1], 1)` (sorted trivially). -/
theorem invertSVD_steps_witness :
    (∀ i j, svdNormalized (fun _ _ => (1 : ℝ) : Matrix (Fin 1) (Fin 1) ℝ) i j =
        (fun _ _ => (1 : ℝ) : Matrix (Fin 1) (Fin 1) ℝ) i j /
          (Real.sqrt ((fun _ _ => (1 : ℝ) : Matrix (Fin 1) (Fin 1) ℝ) i i) *
            Real.sqrt ((fun _ _ => (1 : ℝ) : Matrix (Fin 1) (Fin 1) ℝ) j j))) ∧
    (invertSVD (fun _ _ => (1 : ℝ) : Matrix (Fin 1) (Fin 1) ℝ)
        (fun _ => (1, fun _ => 1, 1))).2 =
      ((fun _ => (1, fun _ => 1, 1) :
        Matrix (Fin 1) (Fin 1) ℝ →
          Matrix (Fin 1) (Fin 1) ℝ × (Fin 1 → ℝ) × Matrix (Fin 1) (Fin 1) ℝ)
        (svdNormalized (fun _ _ => (1 : ℝ)))).2.1 ∧
    (∀ i j, (invertSVD (fun _ _ => (1 : ℝ) : Matrix (Fin 1) (Fin 1) ℝ)
        (fun _ => (1, fun _ => 1, 1))).1 i j =
      (∑ r ∈ Finset.univ.filter (fun r : Fin 1 =>
          ((fun _ => (1, fun _ => 1, 1) :
            Matrix (Fin 1) (Fin 1) ℝ →
              Matrix (Fin 1) (Fin 1) ℝ × (Fin 1 → ℝ) × Matrix (Fin 1) (Fin 1) ℝ)
            (svdNormalized (fun _ _ => (1 : ℝ)))).2.1 r > 1e-10),
          ((fun _ => (1, fun _ => 1, 1) :
            Matrix (Fin 1) (Fin 1) ℝ →
              Matrix (Fin 1) (Fin 1) ℝ × (Fin 1 → ℝ) × Matrix (Fin 1) (Fin 1) ℝ)
            (svdNormalized (fun _ _ => (1 : ℝ)))).1 i r *
            (1 / ((fun _ => (1, fun _ => 1, 1) :
              Matrix (Fin 1) (Fin 1) ℝ →
                Matrix (Fin 1) (Fin 1) ℝ × (Fin 1 → ℝ) × Matrix (Fin 1) (Fin 1) ℝ)
              (svdNormalized (fun _ _ => (1 : ℝ)))).2.1 r) *
            ((fun _ => (1, fun _ => 1, 1) :
              Matrix (Fin 1) (Fin 1) ℝ →
                Matrix (Fin 1) (Fin 1) ℝ × (Fin 1 → ℝ) × Matrix (Fin 1) (Fin 1) ℝ)
              (svdNormalized (fun _ _ => (1 : ℝ)))).2.2 r j) /
        (Real.sqrt ((fun _ _ => (1 : ℝ) : Matrix (Fin 1) (Fin 1) ℝ) i i) *
          Real.sqrt ((fun _ _ => (1 : ℝ) : Matrix (Fin 1) (Fin 1) ℝ) j j))) :=
  invertSVD_steps (fun _ _ => (1 : ℝ)) (fun _ => (1, fun _ => 1, 1))
    (fun _ _ _ => le_refl 1)

/-- Helper for C6: if a symmetric real matrix equals `U * diagonal S * Vh`
with `U`, `Vh` orthogonal and all `S r` positive, then
`U * diagonal (1/S) * Vh` (the matrix `invertSVD` reconstructs when nothing is
truncated) is its exact two-sided inverse, even though this is not `V S⁻¹ Uᵀ`:
symmetry forces `Vh * U` to be a symmetric orthogonal matrix commuting with
`diagonal S`. -/
theorem svd_symmetric_reconstruction_inverse {n : ℕ}
    (U Vh : Matrix (Fin n) (Fin n) ℝ) (S : Fin n → ℝ)
    (hU : Uᵀ * U = 1) (hV : Vh * Vhᵀ = 1) (hS : ∀ r, 0 < S r)
    (hsymN : (U * Matrix.diagonal S * Vh)ᵀ = U * Matrix.diagonal S * Vh) :
    (U * Matrix.diagonal S * Vh) * (U * Matrix.diagonal (fun r => 1 / S r) * Vh)
      = 1 := by
  have hUt : U * Uᵀ = 1 := Matrix.mul_eq_one_comm.mp hU
  have hVt : Vhᵀ * Vh = 1 := Matrix.mul_eq_one_comm.mp hV
  set W : Matrix (Fin n) (Fin n) ℝ := Vh * U with hW
  set D : Matrix (Fin n) (Fin n) ℝ := Matrix.diagonal S with hD
  have hWt : Wᵀ = Uᵀ * Vhᵀ := by rw [hW, Matrix.transpose_mul]
  have hWWt : W * Wᵀ = 1 := by
    rw [hWt, hW]
    calc Vh * U * (Uᵀ * Vhᵀ) = Vh * (U * Uᵀ) * Vhᵀ := by
          simp only [Matrix.mul_assoc]
      _ = 1 := by rw [hUt, Matrix.mul_one, hV]
  have hWtW : Wᵀ * W = 1 := Matrix.mul_eq_one_comm.mp hWWt
  -- symmetry of `U * D * Vh` gives `Vhᵀ * D * Uᵀ = U * D * Vh`,
  -- hence `Wᵀ * D * Wᵀ = D`
  have hflip : Vhᵀ * D * Uᵀ = U * D * Vh := by
    have := hsymN
    rwa [Matrix.transpose_mul, Matrix.transpose_mul, hD,
      Matrix.diagonal_transpose, ← Matrix.mul_assoc, ← hD] at this
  have hdagger : Wᵀ * D * Wᵀ = D := by
    have h1 : Uᵀ * (Vhᵀ * D * Uᵀ) * Vhᵀ = Wᵀ * D * Wᵀ := by
      rw [hWt]; simp only [Matrix.mul_assoc]
    have h2 : Uᵀ * (U * D * Vh) * Vhᵀ = D := by
      calc Uᵀ * (U * D * Vh) * Vhᵀ = (Uᵀ * U) * D * (Vh * Vhᵀ) := by
            simp only [Matrix.mul_assoc]
        _ = D := by rw [hU, hV, Matrix.one_mul, Matrix.mul_one]
    rw [← h1, hflip, h2]
  have hstar : W * D = D * Wᵀ := by
    calc W * D = W * (Wᵀ * D * Wᵀ) := by rw [hdagger]
      _ = (W * Wᵀ) * D * Wᵀ := by simp only [Matrix.mul_assoc]
      _ = D * Wᵀ := by rw [hWWt, Matrix.one_mul]
  -- `W * D` is symmetric, so `W` commutes with `D * D`
  have hWDsymm : (W * D)ᵀ = W * D := by
    rw [Matrix.transpose_mul, hD, Matrix.diagonal_transpose, ← hD, ← hstar]
  have hsq : W * (D * D) * Wᵀ = D * D := by
    have h1 : (W * D) * (W * D)ᵀ = W * (D * D) * Wᵀ := by
      rw [Matrix.transpose_mul, hD, Matrix.diagonal_transpose, ← hD]
      simp only [Matrix.mul_assoc]
    have h2 : (W * D) * (W * D)ᵀ = D * D := by
      rw [hWDsymm]
      nth_rewrite 1 [hstar]
      calc D * Wᵀ * (W * D) = D * (Wᵀ * W) * D := by simp only [Matrix.mul_assoc]
        _ = D * D := by rw [hWtW, Matrix.mul_one]
    rw [← h1, h2]
  have hsqcomm : W * (D * D) = (D * D) * W := by
    calc W * (D * D) = W * (D * D) * (Wᵀ * W) := by rw [hWtW, Matrix.mul_one]
      _ = (W * (D * D) * Wᵀ) * W := by simp only [Matrix.mul_assoc]
      _ = (D * D) * W := by rw [hsq]
  -- entrywise: `W i j ≠ 0` forces `S i = S j`, so `W` commutes with `D` itself
  have hcomm : W * D = D * W := by
    ext i j
    rw [hD, Matrix.mul_diagonal, Matrix.diagonal_mul]
    rcases eq_or_ne (W i j) 0 with h0 | h0
    · rw [h0, zero_mul, mul_zero]
    · have hij : W i j * (S j * S j) = S i * S i * W i j := by
        have := congrFun (congrFun hsqcomm i) j
        rwa [hD, Matrix.diagonal_mul_diagonal, Matrix.mul_diagonal,
          Matrix.diagonal_mul] at this
      have hSS : S j * S j = S i * S i := by
        have : W i j * (S j * S j) = W i j * (S i * S i) := by
          rw [hij]; ring
        exact mul_left_cancel₀ h0 this
      have hSij : S j = S i :=
        (mul_self_inj_of_nonneg (le_of_lt (hS j)) (le_of_lt (hS i))).mp hSS
      rw [hSij]; ring
  -- `D * W = D * Wᵀ` and `D` invertible give `W = Wᵀ`
  have hWsymm : W = Wᵀ := by
    have hDW : D * W = D * Wᵀ := by rw [← hcomm, hstar]
    ext i j
    have h1 := congrFun (congrFun hDW i) j
    rw [hD, Matrix.diagonal_mul, Matrix.diagonal_mul] at h1
    have h2 := mul_left_cancel₀ (ne_of_gt (hS i)) h1
    rw [h2, Matrix.transpose_apply]
  have hDD : D * Matrix.diagonal (fun r => 1 / S r) = 1 := by
    have hone : (fun r => S r * (1 / S r)) = fun _ => (1 : ℝ) :=
      funext fun r => by rw [mul_one_div, div_self (ne_of_gt (hS r))]
    rw [hD, Matrix.diagonal_mul_diagonal, hone, Matrix.diagonal_one]
  calc (U * D * Vh) * (U * Matrix.diagonal (fun r => 1 / S r) * Vh)
      = U * D * W * Matrix.diagonal (fun r => 1 / S r) * Vh := by
        rw [hW]; simp only [Matrix.mul_assoc]
    _ = U * (D * W) * Matrix.diagonal (fun r => 1 / S r) * Vh := by
        simp only [Matrix.mul_assoc]
    _ = U * (W * D) * Matrix.diagonal (fun r => 1 / S r) * Vh := by
        rw [hcomm]
    _ = U * W * (D * Matrix.diagonal (fun r => 1 / S r)) * Vh := by
        simp only [Matrix.mul_assoc]
    _ = U * W * Vh := by rw [hDD, Matrix.mul_one]
    _ = U * (Uᵀ * Vhᵀ) * Vh := by rw [hWsymm, hWt]
    _ = (U * Uᵀ) * (Vhᵀ * Vh) := by simp only [Matrix.mul_assoc]
    _ = 1 := by rw [hUt, hVt, Matrix.mul_one]

/-- Claim C6: round-trip of `invertSVD`.  For a symmetric matrix `M` with
strictly positive diagonal whose normalized matrix has an SVD (orthogonal
`U`, `Vh`, singular values all strictly above `1e-10`, so nothing is
truncated), `M` times the first component of `invertSVD M` is exactly the
identity: the normalization by the diagonal outer product cancels against the
final denormalization. -/
theorem invertSVD_roundtrip {n : ℕ} (M : Matrix (Fin n) (Fin n) ℝ)
    (svd : Matrix (Fin n) (Fin n) ℝ →
      Matrix (Fin n) (Fin n) ℝ × (Fin n → ℝ) × Matrix (Fin n) (Fin n) ℝ)
    (hsym : ∀ i j, M i j = M j i)
    (hdiag : ∀ i, 0 < M i i)
    (hdec : svdNormalized M =
      (svd (svdNormalized M)).1 *
        Matrix.diagonal (svd (svdNormalized M)).2.1 * (svd (svdNormalized M)).2.2)
    (hU : (svd (svdNormalized M)).1ᵀ * (svd (svdNormalized M)).1 = 1)
    (hV : (svd (svdNormalized M)).2.2 * (svd (svdNormalized M)).2.2ᵀ = 1)
    (hS : ∀ r, (1e-10 : ℝ) < (svd (svdNormalized M)).2.1 r) :
    M * (invertSVD M svd).1 = 1 := by
  set U := (svd (svdNormalized M)).1 with hUdef
  set S := (svd (svdNormalized M)).2.1 with hSdef
  set Vh := (svd (svdNormalized M)).2.2 with hVhdef
  have hSpos : ∀ r, 0 < S r :=
    fun r => lt_trans (by norm_num : (0 : ℝ) < 1e-10) (hS r)
  have hdm : ∀ i, 0 < Real.sqrt (M i i) := fun i => Real.sqrt_pos.mpr (hdiag i)
  have hkVal : (Finset.univ.filter fun r : Fin n => S r > (1e-10 : ℝ)).card = n := by
    rw [Finset.filter_true_of_mem fun r _ => hS r, Finset.card_univ,
      Fintype.card_fin]
  have hidx : (Finset.univ.filter fun r : Fin n =>
      (r : ℕ) < (Finset.univ.filter fun r : Fin n => S r > (1e-10 : ℝ)).card) =
      Finset.univ := by
    rw [hkVal]
    exact Finset.filter_true_of_mem fun r _ => r.isLt
  have hinv : ∀ i j, (invertSVD M svd).1 i j =
      (U * Matrix.diagonal (fun r => 1 / S r) * Vh) i j / svdNormalizer M i j := by
    intro i j
    show (∑ r ∈ Finset.univ.filter fun r : Fin n =>
        (r : ℕ) < (Finset.univ.filter fun r : Fin n => S r > (1e-10 : ℝ)).card,
        U i r * (1 / S r) * Vh r j) / svdNormalizer M i j = _
    rw [hidx, Matrix.mul_assoc, Matrix.mul_apply]
    congr 1
    exact Finset.sum_congr rfl fun r _ => by
      rw [Matrix.diagonal_mul, mul_assoc]
  have hsymN : (svdNormalized M)ᵀ = svdNormalized M := by
    ext i j
    show svdNormalized M j i = svdNormalized M i j
    unfold svdNormalized svdNormalizer
    rw [hsym j i, mul_comm (Real.sqrt (M j j)) (Real.sqrt (M i i))]
  have hNInv : svdNormalized M * (U * Matrix.diagonal (fun r => 1 / S r) * Vh)
      = 1 := by
    rw [hdec]
    exact svd_symmetric_reconstruction_inverse U Vh S hU hV hSpos
      (by rw [← hdec]; exact hsymN)
  ext i j
  rw [Matrix.mul_apply]
  have hterm : ∀ k, M i k * (invertSVD M svd).1 k j =
      (Real.sqrt (M i i) / Real.sqrt (M j j)) *
        (svdNormalized M i k *
          (U * Matrix.diagonal (fun r => 1 / S r) * Vh) k j) := by
    intro k
    rw [hinv k j]
    show M i k * (_ / svdNormalizer M k j) = _
    unfold svdNormalized svdNormalizer
    have hi := ne_of_gt (hdm i)
    have hj := ne_of_gt (hdm j)
    have hk := ne_of_gt (hdm k)
    field_simp
    ring
  calc ∑ k, M i k * (invertSVD M svd).1 k j
      = ∑ k, (Real.sqrt (M i i) / Real.sqrt (M j j)) *
          (svdNormalized M i k *
            (U * Matrix.diagonal (fun r => 1 / S r) * Vh) k j) :=
        Finset.sum_congr rfl fun k _ => hterm k
    _ = (Real.sqrt (M i i) / Real.sqrt (M j j)) *
          ((svdNormalized M * (U * Matrix.diagonal (fun r => 1 / S r) * Vh)) i j)
        := by rw [Matrix.mul_apply, Finset.mul_sum]
    _ = (1 : Matrix (Fin n) (Fin n) ℝ) i j := by
        rw [hNInv]
        by_cases hij : i = j
        · subst hij
          rw [Matrix.one_apply_eq, mul_one, div_self (ne_of_gt (hdm i))]
        · rw [Matrix.one_apply_ne hij, mul_zero]

/-- Witness for C6: the 1×1 matrix `[[4]]`, whose normalized matrix is the
identity, with the constant svd collaborator returning `(1, [1], 1)`. -/
theorem invertSVD_roundtrip_witness :
    witnessMatrixFour * (invertSVD witnessMatrixFour witnessSvdOne).1 = 1 := by
  have h4 : Real.sqrt 4 = 2 := by
    rw [show (4 : ℝ) = 2 ^ 2 by norm_num, Real.sqrt_sq (by norm_num : (0:ℝ) ≤ 2)]
  have hnorm : svdNormalized witnessMatrixFour =
      (witnessSvdOne (svdNormalized witnessMatrixFour)).1 *
        Matrix.diagonal (witnessSvdOne (svdNormalized witnessMatrixFour)).2.1 *
        (witnessSvdOne (svdNormalized witnessMatrixFour)).2.2 := by
    have hfix : witnessSvdOne (svdNormalized witnessMatrixFour) =
        (1, fun _ => 1, 1) := rfl
    rw [hfix, Matrix.diagonal_one, Matrix.mul_one, Matrix.one_mul]
    ext i j
    rw [Fin.fin_one_eq_zero i, Fin.fin_one_eq_zero j, Matrix.one_apply_eq]
    show (4 : ℝ) / (Real.sqrt ((4 : ℝ)) * Real.sqrt ((4 : ℝ))) = 1
    rw [h4]
    norm_num
  exact invertSVD_roundtrip witnessMatrixFour witnessSvdOne
    (fun _ _ => rfl) (fun _ => by norm_num [witnessMatrixFour]) hnorm
    (by show (1 : Matrix (Fin 1) (Fin 1) ℝ)ᵀ * 1 = 1
        rw [Matrix.transpose_one, Matrix.one_mul])
    (by show (1 : Matrix (Fin 1) (Fin 1) ℝ) * (1 : Matrix (Fin 1) (Fin 1) ℝ)ᵀ = 1
        rw [Matrix.transpose_one, Matrix.one_mul])
    (fun _ => by norm_num [witnessSvdOne])

/-! ### Theorems about the derivative engine -/

/-- Claim C4: the three analytic branches of `with_respect_to`, each built
from the cached central projection: `-(1/d)` times the projection for
`luminosity_distance`, `i·2π·f` times the projection per frequency bin for
`geocent_time`, and `-i` times the projection for `phase`. -/
theorem with_respect_to_analytic {m : ℕ} (D : Derivative m) :
    (∀ i, D.with_respect_to "luminosity_distance" i =
      ((-(1 / D.local_params "luminosity_distance") : ℝ) : ℂ) *
        D.projection_at_parameters i) ∧
    (∀ i, D.with_respect_to "geocent_time" i =
      Complex.I * ((2 * Real.pi * D.frequencyvector i : ℝ) : ℂ) *
        D.projection_at_parameters i) ∧
    (∀ i, D.with_respect_to "phase" i =
      -Complex.I * D.projection_at_parameters i) := by
  refine ⟨fun i => ?_, fun i => ?_, fun i => ?_⟩
  · show (if ("luminosity_distance" : String) = "luminosity_distance" then
        fun i => (((-1 : ℝ) / D.local_params "luminosity_distance" : ℝ) : ℂ) *
          D.projection_at_parameters i
      else _) i = _
    rw [if_pos rfl]
    push_cast
    ring
  · show (if ("geocent_time" : String) = "luminosity_distance" then _
      else if ("geocent_time" : String) = "geocent_time" then
        fun i => 2 * Complex.I * (Real.pi : ℂ) * (D.frequencyvector i : ℂ) *
          D.projection_at_parameters i
      else _) i = _
    rw [if_neg (by decide), if_pos rfl]
    push_cast
    ring
  · show (if ("phase" : String) = "luminosity_distance" then _
      else if ("phase" : String) = "geocent_time" then _
      else if ("phase" : String) = "phase" then
        fun i => -Complex.I * D.projection_at_parameters i
      else _) i = _
    rw [if_neg (by decide), if_neg (by decide), if_pos rfl]

/-- Counterexample to claim C3: at the concrete input `witnessDerivC3`
(central value `ra = -2`, `eps = 1e-5`, cubic projection), the source's
derivative differs from the claim's `max(eps, eps·|θ|)` rule: the code's step
is `max(1e-5, 1e-5·(-2)) = 1e-5`, giving `12 + 2.5e-11`, while the claim's
step `max(1e-5, 1e-5·2) = 2e-5` would give `12 + 1e-10`. -/
theorem with_respect_to_step_counterexample :
    witnessDerivC3.with_respect_to "ra" 0 ≠
      witnessDerivC3.claimed_projection_fd "ra" 0 := by
  have hL : witnessDerivC3.with_respect_to "ra" 0 =
      ((((-2 + 1e-5 / 2 : ℝ) ^ 3 - (-2 - 1e-5 / 2 : ℝ) ^ 3) / 1e-5 : ℝ) : ℂ) := by
    have hmax : max (1e-5 : ℝ) (1e-5 * (-2)) = 1e-5 :=
      max_eq_left (by norm_num)
    simp only [Derivative.with_respect_to]
    rw [if_neg (by decide : ¬("ra" : String) = "luminosity_distance"),
      if_neg (by decide : ¬("ra" : String) = "geocent_time"),
      if_neg (by decide : ¬("ra" : String) = "phase")]
    simp only [witnessDerivC3, Derivative.waveform_at_parameters]
    norm_num [Function.update_same, hmax]
  have hR : witnessDerivC3.claimed_projection_fd "ra" 0 =
      ((((-2 + 2e-5 / 2 : ℝ) ^ 3 - (-2 - 2e-5 / 2 : ℝ) ^ 3) / 2e-5 : ℝ) : ℂ) := by
    have habs : |(-2 : ℝ)| = 2 := by norm_num
    have hmax : max (1e-5 : ℝ) (1e-5 * 2) = 2e-5 := by
      rw [max_eq_right (by norm_num)]
      norm_num
    simp only [Derivative.claimed_projection_fd, witnessDerivC3,
      Derivative.waveform_at_parameters]
    norm_num [Function.update_same, habs, hmax]
  rw [hL, hR]
  intro h
  rw [Complex.ofReal_inj] at h
  norm_num at h

/-- Claim C3 as amended: for every numerically-differentiated target
parameter (both the `ra`/`dec`/`psi` projection-only branch and the intrinsic
full-regeneration branch), `with_respect_to` uses the finite-difference step
`dθ = max(eps, eps·θ)` — with the raw central value, not its absolute value,
so for a negative θ the step is always `eps` — and evaluates the two
perturbed points at `θ − dθ/2` and `θ + dθ/2`. -/
theorem with_respect_to_numeric_step {m : ℕ} (D : Derivative m)
    (target_parameter : String)
    (hna : target_parameter ∉ ["luminosity_distance", "geocent_time", "phase"]) :
    Derivative.defaultEps = 1e-5 ∧
    D.with_respect_to target_parameter =
      if target_parameter = "ra" ∨ target_parameter = "dec" ∨
          target_parameter = "psi" then
        D.amended_projection_fd target_parameter
      else D.amended_regeneration_fd target_parameter := by
  refine ⟨rfl, ?_⟩
  simp only [List.mem_cons, List.mem_singleton, not_or] at hna
  obtain ⟨h1, h2, h3, -⟩ := hna
  unfold Derivative.with_respect_to
  rw [if_neg h1, if_neg h2, if_neg h3]
  by_cases hsky : target_parameter = "ra" ∨ target_parameter = "dec" ∨
      target_parameter = "psi"
  · rw [if_pos hsky, if_pos hsky]
    rfl
  · rw [if_neg hsky, if_neg hsky]
    have hcollapse : ∀ v : ℝ,
        Function.update (Function.update
            (Function.update D.local_params target_parameter v)
            "geocent_time" 0) "geocent_time" D.tc
          = Function.update D.local_params target_parameter v := by
      intro v
      rw [Function.update_idem]
      have hval : (Function.update D.local_params target_parameter v)
          "geocent_time" = D.tc := by
        rw [Function.update_noteq (Ne.symm h2)]
        rfl
      rw [← hval, Function.update_eq_self]
    show (fun i => _) = _
    unfold Derivative.amended_regeneration_fd Derivative.fd_step
    simp only [hcollapse]

/-- Witness for C3 (amended): the amended step rule evaluated at the
concrete input `witnessDerivC3` with target `ra`. -/
theorem with_respect_to_numeric_step_witness :
    Derivative.defaultEps = 1e-5 ∧
    witnessDerivC3.with_respect_to "ra" =
      if ("ra" : String) = "ra" ∨ ("ra" : String) = "dec" ∨
          ("ra" : String) = "psi" then
        witnessDerivC3.amended_projection_fd "ra"
      else witnessDerivC3.amended_regeneration_fd "ra" :=
  with_respect_to_numeric_step witnessDerivC3 "ra" (by decide)

/-! ### Theorems about the network aggregator -/

/-- Generalized fold characterization of the per-signal detector loop: from
any starting accumulator, the SNR² component gains the sum of all detectors'
SNR² and the matrix component gains the sum of the Fisher matrices of
exactly those detectors whose own SNR strictly exceeds the individual
threshold. -/
theorem networkAccumulate_foldl {δ : Type} {n : ℕ} (detector_snr_thr : ℝ)
    (detectorFisher : δ → Matrix (Fin n) (Fin n) ℝ × ℝ) (l : List δ)
    (acc : Matrix (Fin n) (Fin n) ℝ × ℝ) :
    l.foldl
      (fun acc d =>
        let fisher_snr := detectorFisher d
        ((if Real.sqrt fisher_snr.2 > detector_snr_thr then
            acc.1 + fisher_snr.1
          else acc.1),
          acc.2 + fisher_snr.2)) acc =
      (acc.1 + ((l.filter fun d =>
          decide (Real.sqrt (detectorFisher d).2 > detector_snr_thr)).map
            fun d => (detectorFisher d).1).sum,
        acc.2 + (l.map fun d => (detectorFisher d).2).sum) := by
  induction l generalizing acc with
  | nil => simp
  | cons d l ih =>
    rw [List.foldl_cons, ih]
    by_cases hd : Real.sqrt (detectorFisher d).2 > detector_snr_thr
    · simp only [hd, if_true, List.filter_cons, decide_eq_true_eq,
        List.map_cons, List.sum_cons, hd, if_pos]
      rw [Prod.mk.injEq]
      constructor
      · rw [add_assoc]
      · rw [add_assoc]
    · simp only [hd, if_false, List.filter_cons, decide_eq_true_eq,
        List.map_cons, List.sum_cons, if_neg hd]
      rw [Prod.mk.injEq]
      constructor
      · rfl
      · rw [add_assoc]

/-- Claim C1: in `compute_network_errors`, for every signal, every detector's
SNR² enters the network SNR² accumulator unconditionally, while its Fisher
matrix enters the network Fisher matrix exactly when its own SNR (the square
root of its SNR²) strictly exceeds the individual threshold (first element of
`network.detection_SNR`); the network SNR is the square root of the sum of
all per-detector SNR², regardless of which matrices were included. -/
theorem network_accumulation_rule {δ σ : Type} {n : ℕ} (detector_snr_thr : ℝ)
    (detectors : List δ)
    (detectorFisher : δ → σ → Matrix (Fin n) (Fin n) ℝ × ℝ) (sig : σ) :
    (networkAccumulate detector_snr_thr detectors
        (fun d => detectorFisher d sig)).2 =
      ((detectors.map fun d => (detectorFisher d sig).2).sum) ∧
    (networkAccumulate detector_snr_thr detectors
        (fun d => detectorFisher d sig)).1 =
      (((detectors.filter fun d =>
          decide (Real.sqrt (detectorFisher d sig).2 > detector_snr_thr)).map
            fun d => (detectorFisher d sig).1).sum) ∧
    networkSnrAt detector_snr_thr detectors detectorFisher sig =
      Real.sqrt ((detectors.map fun d => (detectorFisher d sig).2).sum) := by
  have h := networkAccumulate_foldl detector_snr_thr
    (fun d => detectorFisher d sig) detectors
    ((0 : Matrix (Fin n) (Fin n) ℝ), (0 : ℝ))
  have hacc : networkAccumulate detector_snr_thr detectors
      (fun d => detectorFisher d sig) =
      (((detectors.filter fun d =>
          decide (Real.sqrt (detectorFisher d sig).2 > detector_snr_thr)).map
            fun d => (detectorFisher d sig).1).sum,
        ((detectors.map fun d => (detectorFisher d sig).2).sum)) := by
    rw [networkAccumulate, h]
    simp
  refine ⟨by rw [hacc], by rw [hacc], ?_⟩
  rw [networkSnrAt, hacc]

/-- Claim C2: `compute_network_errors` returns results exactly for the
signals whose network SNR strictly exceeds the network threshold (second
element of `network.detection_SNR`): the returned SNRs, errors and sky areas
are all maps over the same filtered signal list, a signal whose SNR equals
the threshold exactly is excluded, and every signal strictly above it is
included. -/
theorem compute_network_errors_detection {δ σ : Type} (network : Network δ)
    (parameter_values : List σ) (fisher_parameters : List String)
    (detectorFisher : δ → σ →
      Matrix (Fin fisher_parameters.length) (Fin fisher_parameters.length) ℝ × ℝ)
    (decOf : σ → ℝ)
    (svd : Matrix (Fin fisher_parameters.length) (Fin fisher_parameters.length) ℝ →
      Matrix (Fin fisher_parameters.length) (Fin fisher_parameters.length) ℝ ×
        (Fin fisher_parameters.length → ℝ) ×
        Matrix (Fin fisher_parameters.length) (Fin fisher_parameters.length) ℝ) :
    ((compute_network_errors network parameter_values fisher_parameters
        detectorFisher decOf svd).1 =
      (parameter_values.filter fun s => decide
        (networkSnrAt network.detection_SNR.1 network.detectors detectorFisher s >
          network.detection_SNR.2)).map
        (networkSnrAt network.detection_SNR.1 network.detectors detectorFisher)) ∧
    ((compute_network_errors network parameter_values fisher_parameters
        detectorFisher decOf svd).2.1 =
      (parameter_values.filter fun s => decide
        (networkSnrAt network.detection_SNR.1 network.detectors detectorFisher s >
          network.detection_SNR.2)).map
        (networkErrorsAt network.detection_SNR.1 network.detectors detectorFisher
          svd)) ∧
    ((compute_network_errors network parameter_values fisher_parameters
        detectorFisher decOf svd).2.2 =
      if h : "ra" ∈ fisher_parameters ∧ "dec" ∈ fisher_parameters then
        some ((parameter_values.filter fun s => decide
          (networkSnrAt network.detection_SNR.1 network.detectors detectorFisher s >
            network.detection_SNR.2)).map
          (networkSkyAt network.detection_SNR.1 network.detectors detectorFisher
            svd decOf
            ⟨fisher_parameters.indexOf "ra", List.indexOf_lt_length.mpr h.1⟩
            ⟨fisher_parameters.indexOf "dec", List.indexOf_lt_length.mpr h.2⟩))
      else none) ∧
    (∀ s,
      networkSnrAt network.detection_SNR.1 network.detectors detectorFisher s =
        network.detection_SNR.2 →
      s ∉ parameter_values.filter fun s => decide
        (networkSnrAt network.detection_SNR.1 network.detectors detectorFisher s >
          network.detection_SNR.2)) ∧
    (∀ s ∈ parameter_values,
      networkSnrAt network.detection_SNR.1 network.detectors detectorFisher s >
        network.detection_SNR.2 →
      s ∈ parameter_values.filter fun s => decide
        (networkSnrAt network.detection_SNR.1 network.detectors detectorFisher s >
          network.detection_SNR.2)) := by
  refine ⟨rfl, rfl, rfl, ?_, ?_⟩
  · intro s hs hmem
    have h := (List.mem_filter.mp hmem).2
    rw [decide_eq_true_eq] at h
    rw [hs] at h
    exact lt_irrefl _ h
  · intro s hs h
    exact List.mem_filter.mpr ⟨hs, decide_eq_true h⟩

/-- Claim C10: `invertSVD` normalizes by the outer product of the square
roots of the diagonal with no guard and no error branch, and
`compute_network_errors` makes a zero diagonal reachable: when no detector's
SNR strictly exceeds the individual threshold for a signal, the accumulated
network Fisher matrix handed to `invertSVD` is the zero matrix, and every
entry of the normalizer `invertSVD` divides by is then exactly `0` — a
division by zero, raised as no exception anywhere in this core (the
embedding, like the Python, is a total function with no failure branch). -/
theorem zero_fisher_reaches_zero_normalizer {δ σ : Type} {n : ℕ}
    (detector_snr_thr : ℝ) (detectors : List δ)
    (detectorFisher : δ → σ → Matrix (Fin n) (Fin n) ℝ × ℝ) (sig : σ)
    (hbelow : ∀ d ∈ detectors,
      Real.sqrt (detectorFisher d sig).2 ≤ detector_snr_thr) :
    (networkAccumulate detector_snr_thr detectors
        (fun d => detectorFisher d sig)).1 = 0 ∧
    (∀ i j, svdNormalizer
      (networkAccumulate detector_snr_thr detectors
        (fun d => detectorFisher d sig)).1 i j = 0) := by
  have h := networkAccumulate_foldl detector_snr_thr
    (fun d => detectorFisher d sig) detectors
    ((0 : Matrix (Fin n) (Fin n) ℝ), (0 : ℝ))
  have hfil : (detectors.filter fun d =>
      decide (Real.sqrt (detectorFisher d sig).2 > detector_snr_thr)) = [] := by
    rw [List.filter_eq_nil_iff]
    intro d hd
    rw [decide_eq_true_eq]
    exact not_lt.mpr (hbelow d hd)
  have hzero : (networkAccumulate detector_snr_thr detectors
      (fun d => detectorFisher d sig)).1 = 0 := by
    rw [networkAccumulate, h, hfil]
    simp
  refine ⟨hzero, fun i j => ?_⟩
  rw [hzero]
  show Real.sqrt ((0 : Matrix (Fin n) (Fin n) ℝ) i i) *
    Real.sqrt ((0 : Matrix (Fin n) (Fin n) ℝ) j j) = 0
  rw [Matrix.zero_apply, Real.sqrt_zero, zero_mul]

/-- Witness for C10: a single detector whose SNR² is `0` against an
individual threshold of `8` — `sqrt 0 = 0 ≤ 8`, so its Fisher matrix is
never added and the zero matrix reaches `invertSVD`. -/
theorem zero_fisher_reaches_zero_normalizer_witness :
    (networkAccumulate witnessNetworkThr.detection_SNR.1
        witnessNetworkThr.detectors (fun d => witnessZeroFisher d ())).1 = 0 ∧
    (∀ i j, svdNormalizer
      (networkAccumulate witnessNetworkThr.detection_SNR.1
        witnessNetworkThr.detectors (fun d => witnessZeroFisher d ())).1 i j
        = 0) :=
  zero_fisher_reaches_zero_normalizer witnessNetworkThr.detection_SNR.1
    witnessNetworkThr.detectors witnessZeroFisher ()
    (fun d _ => by
      show Real.sqrt (witnessZeroFisher d ()).2 ≤ witnessNetworkThr.detection_SNR.1
      rw [show (witnessZeroFisher d ()).2 = 0 from rfl, Real.sqrt_zero]
      norm_num [witnessNetworkThr])

/-! ### Theorems about the reporting driver -/

/-- Claim C9: in `analyze_and_save_to_txt` the numerical results are
independent of `sub_network_ids`: although a partial network is constructed
for each id list, the full network is passed to `compute_network_errors`, so
the result component of every output entry is the same
`compute_network_errors` value, and the id lists affect only the file
names. -/
theorem analyze_results_independent_of_sub_network_ids {δ σ : Type}
    (network : Network δ) (parameter_values : List σ)
    (fisher_parameters : List String)
    (sub_network_ids_list : List (List ℕ)) (population_name : String)
    (subNetworkOf : Network δ → List ℕ → Network δ)
    (nameOf : δ → String) (snrText : ℝ → String)
    (detectorFisher : δ → σ →
      Matrix (Fin fisher_parameters.length) (Fin fisher_parameters.length) ℝ × ℝ)
    (decOf : σ → ℝ)
    (svd : Matrix (Fin fisher_parameters.length) (Fin fisher_parameters.length) ℝ →
      Matrix (Fin fisher_parameters.length) (Fin fisher_parameters.length) ℝ ×
        (Fin fisher_parameters.length → ℝ) ×
        Matrix (Fin fisher_parameters.length) (Fin fisher_parameters.length) ℝ) :
    ((analyze_and_save_to_txt network parameter_values fisher_parameters
        sub_network_ids_list population_name subNetworkOf nameOf snrText
        detectorFisher decOf svd).map Prod.snd =
      sub_network_ids_list.map (fun _ =>
        compute_network_errors network parameter_values fisher_parameters
          detectorFisher decOf svd)) ∧
    ((analyze_and_save_to_txt network parameter_values fisher_parameters
        sub_network_ids_list population_name subNetworkOf nameOf snrText
        detectorFisher decOf svd).map Prod.fst =
      sub_network_ids_list.map (fun sub_network_ids =>
        errors_file_name network sub_network_ids population_name nameOf
          snrText)) := by
  constructor
  · rw [analyze_and_save_to_txt, List.map_map]
    rfl
  · rw [analyze_and_save_to_txt, List.map_map]
    rfl

/-! ### Theorems about the Fisher matrix assembly -/

/-- Effect of the inner pair loop of `update_fm`: folding `fmInnerStep` over
any list of column indices strictly above the row `p1` overwrites exactly the
cells `(p1,p2)` and `(p2,p1)` for `p2` in the list with the row-column inner
product, appends the list to the call trace, and leaves every other cell of
the accumulator unchanged. -/
theorem inner_fold_spec {m nd : ℕ} (fp : Fin nd → String)
    (deriv : String → Fin m → ℂ)
    (sp : (Fin m → ℂ) → (Fin m → ℂ) → Fin m → ℝ)
    (p1 : Fin nd) (l : List (Fin nd)) (hl : ∀ x ∈ l, p1 < x)
    (acc : Matrix (Fin nd) (Fin nd) ℝ × List (Fin nd)) :
    l.foldl (fmInnerStep fp deriv sp p1) acc =
      ((fun i j =>
          if i = p1 ∧ j ∈ l then fmEntry fp deriv sp p1 j
          else if j = p1 ∧ i ∈ l then fmEntry fp deriv sp p1 i
          else acc.1 i j),
        acc.2 ++ l) := by
  induction l generalizing acc with
  | nil => simp
  | cons p2 l ih =>
    have hp2 : p1 < p2 := hl p2 (by simp)
    have hl' : ∀ x ∈ l, p1 < x := fun x hx => hl x (by simp [hx])
    have hne : p1 ≠ p2 := ne_of_lt hp2
    rw [List.foldl_cons, ih hl']
    rw [Prod.mk.injEq]
    constructor
    · funext i j
      simp only [fmInnerStep, mwrite, fmEntry, List.mem_cons]
      by_cases hip : i = p1 <;> by_cases hjp : j = p1 <;>
        by_cases hip2 : i = p2 <;> by_cases hjp2 : j = p2 <;>
        by_cases hjl : j ∈ l <;> by_cases hil : i ∈ l <;>
        simp_all
    · show (acc.2 ++ [p2]) ++ l = acc.2 ++ p2 :: l
      rw [List.append_assoc]
      rfl

/-- Effect of one outer iteration of `update_fm`: row `p1` writes the
diagonal cell and every cell `(p1,j)` with `j > p1` (mirrored to `(j,p1)`),
appends `p1` followed by the columns above it to the call trace, and leaves
all other cells unchanged. -/
theorem fmOuterStep_spec {m nd : ℕ} (fp : Fin nd → String)
    (deriv : String → Fin m → ℂ)
    (sp : (Fin m → ℂ) → (Fin m → ℂ) → Fin m → ℝ)
    (acc : Matrix (Fin nd) (Fin nd) ℝ × List (Fin nd)) (p1 : Fin nd) :
    fmOuterStep fp deriv sp acc p1 =
      ((fun i j =>
          if i = p1 ∧ p1 ≤ j then fmEntry fp deriv sp p1 j
          else if j = p1 ∧ p1 < i then fmEntry fp deriv sp p1 i
          else acc.1 i j),
        acc.2 ++ (p1 :: (List.finRange nd).filter fun p2 => decide (p1 < p2))) := by
  have hl : ∀ x ∈ (List.finRange nd).filter (fun p2 => decide (p1 < p2)),
      p1 < x := by
    intro x hx
    have h := (List.mem_filter.mp hx).2
    rwa [decide_eq_true_eq] at h
  have hmem : ∀ x : Fin nd,
      (x ∈ (List.finRange nd).filter fun p2 => decide (p1 < p2)) ↔ p1 < x := by
    intro x
    rw [List.mem_filter]
    simp [List.mem_finRange]
  simp only [fmOuterStep]
  rw [inner_fold_spec fp deriv sp p1 _ hl]
  rw [Prod.mk.injEq]
  constructor
  · funext i j
    simp only [hmem, mwrite, fmEntry]
    by_cases hip : i = p1 <;> by_cases hjp : j = p1 <;>
      by_cases h1 : p1 < j <;> by_cases h2 : p1 < i <;>
      simp_all [le_iff_lt_or_eq, eq_comm]
  · rw [List.append_assoc]
    rfl

/-- Folding the outer loop over any row list extends the set of filled rows:
if the accumulator holds the final inner-product value at every cell whose
smaller index is an already-processed row and zero elsewhere, so does the
fold result with the row list appended. -/
theorem outer_fold_matrix {m nd : ℕ} (fp : Fin nd → String)
    (deriv : String → Fin m → ℂ)
    (sp : (Fin m → ℂ) → (Fin m → ℂ) → Fin m → ℝ)
    (L : List (Fin nd)) (S : List (Fin nd))
    (acc : Matrix (Fin nd) (Fin nd) ℝ × List (Fin nd))
    (hacc : ∀ i j : Fin nd, acc.1 i j =
      if min i j ∈ S then
        (if i ≤ j then fmEntry fp deriv sp i j else fmEntry fp deriv sp j i)
      else 0) :
    ∀ i j : Fin nd, (L.foldl (fmOuterStep fp deriv sp) acc).1 i j =
      if min i j ∈ S ++ L then
        (if i ≤ j then fmEntry fp deriv sp i j else fmEntry fp deriv sp j i)
      else 0 := by
  induction L generalizing acc S with
  | nil =>
    intro i j
    rw [List.foldl_nil, hacc, List.append_nil]
  | cons p1 L ih =>
    intro i j
    rw [List.foldl_cons, fmOuterStep_spec]
    have hacc' : ∀ i j : Fin nd,
        ((fun i j =>
          if i = p1 ∧ p1 ≤ j then fmEntry fp deriv sp p1 j
          else if j = p1 ∧ p1 < i then fmEntry fp deriv sp p1 i
          else acc.1 i j) : Matrix (Fin nd) (Fin nd) ℝ) i j =
        if min i j ∈ S ++ [p1] then
          (if i ≤ j then fmEntry fp deriv sp i j else fmEntry fp deriv sp j i)
        else 0 := by
      intro a b
      show (if a = p1 ∧ p1 ≤ b then fmEntry fp deriv sp p1 b
        else if b = p1 ∧ p1 < a then fmEntry fp deriv sp p1 a
        else acc.1 a b) = _
      by_cases hA : a = p1 ∧ p1 ≤ b
      · obtain ⟨hA1, hA2⟩ := hA
        rw [if_pos ⟨hA1, hA2⟩, hA1, min_eq_left hA2,
          if_pos (by simp : p1 ∈ S ++ [p1]), if_pos hA2]
      · by_cases hB : b = p1 ∧ p1 < a
        · obtain ⟨hB1, hB2⟩ := hB
          rw [if_neg hA, if_pos ⟨hB1, hB2⟩, hB1,
            min_eq_right (le_of_lt hB2),
            if_pos (by simp : p1 ∈ S ++ [p1]), if_neg (not_le.mpr hB2)]
        · rw [if_neg hA, if_neg hB, hacc a b]
          have hne : min a b ≠ p1 := by
            intro hmin
            rcases le_total a b with hab | hab
            · rw [min_eq_left hab] at hmin
              exact hA ⟨hmin, hmin ▸ hab⟩
            · rw [min_eq_right hab] at hmin
              rcases lt_or_eq_of_le (hmin ▸ hab : p1 ≤ a) with h | h
              · exact hB ⟨hmin, h⟩
              · exact hA ⟨h.symm, by rw [hmin]⟩
          exact (if_congr (by simp [List.mem_append, hne]) rfl rfl).symm
    have h := ih (S ++ [p1])
      ((fun i j =>
          if i = p1 ∧ p1 ≤ j then fmEntry fp deriv sp p1 j
          else if j = p1 ∧ p1 < i then fmEntry fp deriv sp p1 i
          else acc.1 i j),
        acc.2 ++ (p1 :: (List.finRange nd).filter fun p2 => decide (p1 < p2)))
      hacc' i j
    rw [h]
    have hiff : (min i j ∈ (S ++ [p1]) ++ L) ↔ (min i j ∈ S ++ p1 :: L) := by
      simp [List.mem_append, List.mem_cons, or_assoc]
    exact if_congr hiff rfl rfl

/-- The call trace of the outer fold is the concatenation, over the rows in
order, of the row index followed by the columns strictly above it. -/
theorem outer_fold_trace {m nd : ℕ} (fp : Fin nd → String)
    (deriv : String → Fin m → ℂ)
    (sp : (Fin m → ℂ) → (Fin m → ℂ) → Fin m → ℝ)
    (L : List (Fin nd)) (acc : Matrix (Fin nd) (Fin nd) ℝ × List (Fin nd)) :
    (L.foldl (fmOuterStep fp deriv sp) acc).2 =
      acc.2 ++ L.flatMap
        (fun p1 => p1 :: (List.finRange nd).filter fun p2 => decide (p1 < p2)) := by
  induction L generalizing acc with
  | nil => simp
  | cons p1 L ih =>
    rw [List.foldl_cons, fmOuterStep_spec, ih]
    rw [List.flatMap_cons, ← List.append_assoc]

/-- The matrix built by `update_fm`: every cell holds the noise-weighted
inner product of the derivatives of its two indices, with the smaller index
first. -/
theorem update_fm_run_matrix {m nd : ℕ} (fp : Fin nd → String)
    (deriv : String → Fin m → ℂ)
    (sp : (Fin m → ℂ) → (Fin m → ℂ) → Fin m → ℝ) (p q : Fin nd) :
    (update_fm_run fp deriv sp).1 p q =
      if p ≤ q then fmEntry fp deriv sp p q else fmEntry fp deriv sp q p := by
  have h := outer_fold_matrix fp deriv sp (List.finRange nd) []
    ((0 : Matrix (Fin nd) (Fin nd) ℝ), ([] : List (Fin nd)))
    (fun i j => by simp) p q
  rw [update_fm_run, h, if_pos (by simp [List.mem_finRange])]

/-- The call trace of one full `update_fm` run. -/
theorem update_fm_run_trace_eq {m nd : ℕ} (fp : Fin nd → String)
    (deriv : String → Fin m → ℂ)
    (sp : (Fin m → ℂ) → (Fin m → ℂ) → Fin m → ℝ) :
    (update_fm_run fp deriv sp).2 =
      (List.finRange nd).flatMap
        (fun p1 => p1 :: (List.finRange nd).filter fun p2 => decide (p1 < p2)) := by
  rw [update_fm_run, outer_fold_trace]
  rfl

/-- Claim C7: the matrix built by `FisherMatrix.update_fm` (and returned by
the `fm` accessor) is exactly symmetric, for every parameter list and
every derivative and scalar-product collaborator: each off-diagonal value is
computed once for the unordered pair and mirrored. -/
theorem update_fm_symmetric {m nd : ℕ} (fisher_parameters : Fin nd → String)
    (derivative : String → Fin m → ℂ)
    (scalar_product : (Fin m → ℂ) → (Fin m → ℂ) → Fin m → ℝ)
    (p q : Fin nd) :
    (update_fm_run fisher_parameters derivative scalar_product).1 p q =
      (update_fm_run fisher_parameters derivative scalar_product).1 q p := by
  rw [update_fm_run_matrix, update_fm_run_matrix]
  by_cases hpq : p ≤ q <;> by_cases hqp : q ≤ p
  · have h : p = q := le_antisymm hpq hqp
    rw [h]
  · rw [if_pos hpq, if_neg hqp]
  · rw [if_neg hpq, if_pos hqp]
  · exact absurd (le_total p q) (by tauto)

/-- A list over a finite type is as long as the sum of its element
counts. -/
theorem length_eq_sum_count {α : Type} [Fintype α] [DecidableEq α]
    (l : List α) : l.length = ∑ a : α, l.count a := by
  induction l with
  | nil => simp
  | cons x l ih =>
    simp only [List.length_cons, List.count_cons, beq_iff_eq, ih,
      Finset.sum_add_distrib]
    rw [Finset.sum_ite_eq]
    simp

/-- Counterexample to claim C8: for two fisher parameters, the derivative
collaborator is invoked three times in one `update_fm` run (row 0, then
column 1 for the pair, then row 1 again), not two: the inner loop recomputes
the column derivative for every pair. -/
theorem update_fm_calls_counterexample :
    ((update_fm_run witnessFisherParams2 witnessDerivZero
        witnessScalarZero).2).length = 3 ∧
    ¬((update_fm_run witnessFisherParams2 witnessDerivZero
        witnessScalarZero).2).length = 2 := by
  have h := update_fm_run_trace_eq witnessFisherParams2 witnessDerivZero
    witnessScalarZero
  refine ⟨?_, ?_⟩ <;> rw [h] <;> decide

/-- Claim C8 as amended: during `update_fm` over `n` ordered fisher
parameters, the derivative collaborator is invoked once per row plus once
for every pair whose column it is — `p+1` times in total for the parameter
at index `p` and `n(n+1)/2` times overall (stated here as
`2·total = n(n+1)`), not `n` times; since the derivative is a pure function
of the parameter name, every unordered pair's noise-weighted inner product
(including self-pairs) is still formed from the `n` distinct derivative
values, the smaller index supplying the first factor. -/
theorem update_fm_derivative_call_counts {m nd : ℕ}
    (fisher_parameters : Fin nd → String)
    (derivative : String → Fin m → ℂ)
    (scalar_product : (Fin m → ℂ) → (Fin m → ℂ) → Fin m → ℝ) :
    ((update_fm_run fisher_parameters derivative scalar_product).2 =
      (List.finRange nd).flatMap
        (fun p1 => p1 :: (List.finRange nd).filter fun p2 => decide (p1 < p2))) ∧
    (∀ p : Fin nd,
      ((update_fm_run fisher_parameters derivative scalar_product).2).count p =
        (p : ℕ) + 1) ∧
    (2 * ((update_fm_run fisher_parameters derivative scalar_product).2).length =
      nd * (nd + 1)) ∧
    (∀ p q : Fin nd, p ≤ q →
      (update_fm_run fisher_parameters derivative scalar_product).1 p q =
        fmEntry fisher_parameters derivative scalar_product p q ∧
      (update_fm_run fisher_parameters derivative scalar_product).1 q p =
        fmEntry fisher_parameters derivative scalar_product p q) := by
  have htr := update_fm_run_trace_eq fisher_parameters derivative scalar_product
  have hcount : ∀ p : Fin nd,
      ((update_fm_run fisher_parameters derivative scalar_product).2).count p =
        (p : ℕ) + 1 := by
    intro p
    rw [htr, List.count_flatMap]
    have hterm : ∀ p1 : Fin nd,
        (List.count p ∘ fun p1 =>
          p1 :: (List.finRange nd).filter fun p2 => decide (p1 < p2)) p1 =
        (if p1 < p then 1 else 0) + (if p = p1 then 1 else 0) := by
      intro p1
      show List.count p
        (p1 :: (List.finRange nd).filter fun p2 => decide (p1 < p2)) = _
      rw [List.count_cons]
      have hfil : List.count p
          ((List.finRange nd).filter fun p2 => decide (p1 < p2)) =
          if p1 < p then 1 else 0 := by
        by_cases hp : p1 < p
        · rw [if_pos hp, List.count_filter (by rw [decide_eq_true_eq]; exact hp)]
          exact List.count_eq_one_of_mem (List.nodup_finRange nd)
            (List.mem_finRange p)
        · rw [if_neg hp, List.count_eq_zero]
          intro hmem
          have h := (List.mem_filter.mp hmem).2
          rw [decide_eq_true_eq] at h
          exact hp h
      rw [hfil]
      congr 1
      by_cases h : p = p1
      · subst h
        simp
      · have h' : (p1 == p) = false := by
          rw [beq_eq_false_iff_ne]
          exact fun hh => h hh.symm
        rw [h']
        simp [h]
    rw [List.map_congr_left fun p1 _ => hterm p1, ← Fin.sum_univ_def,
      Finset.sum_add_distrib, Finset.sum_ite_eq]
    simp only [Finset.mem_univ, if_true]
    rw [Finset.sum_boole, Finset.filter_gt_eq_Iio, Fin.card_Iio]
    simp
  have hgauss : nd * (nd - 1) + 2 * nd = nd * (nd + 1) := by
    cases nd with
    | zero => rfl
    | succ k =>
      rw [Nat.succ_sub_one]
      ring
  refine ⟨htr, hcount, ?_, ?_⟩
  · rw [length_eq_sum_count]
    have : (∑ p : Fin nd,
        ((update_fm_run fisher_parameters derivative scalar_product).2).count p) =
        (∑ p : Fin nd, (p : ℕ)) + nd := by
      rw [Finset.sum_congr rfl fun p _ => hcount p, Finset.sum_add_distrib]
      simp [Finset.card_univ]
    rw [this, Fin.sum_univ_eq_sum_range (fun i => i) nd, Nat.mul_add,
      Nat.mul_comm 2 (∑ i ∈ Finset.range nd, i),
      Finset.sum_range_id_mul_two nd]
    exact hgauss
  · intro p q hpq
    constructor
    · rw [update_fm_run_matrix, if_pos hpq]
    · rw [update_fm_run_matrix]
      by_cases hqp : q ≤ p
      · have h : p = q := le_antisymm hpq hqp
        rw [if_pos hqp, h]
      · rw [if_neg hqp]

end GWFish
